import Mathlib

/-!
Verification of the NetCom waveform core (src/app.js).

The embedding models the waveform-generation core:
* `charToBinary` / `stringToBinary` (app.js lines 138-148): text to bits,
  with characters represented by their numeric code points (`Nat`) and the
  produced binary string as a `List Char` of digit characters.
* the five per-scheme drawing functions `drawNRZ`, `drawRZ`,
  `drawManchester`, `drawAMI`, `drawCMI` (app.js lines 353-469), which emit
  canvas `moveTo` / `lineTo` calls.  Each emitted point is modelled as a
  `Vertex`: a time position in half-bit units (`pos2`, so bit `i` spans
  positions `2*i` to `2*i+2` and its middle is `2*i+1`), a symbolic voltage
  rail (`Level`), and whether the point was emitted with `moveTo`
  (`move = true`, a new subpath) or `lineTo` (`move = false`).
* the per-bit loop of `drawWaveform` (app.js lines 293-334), modelled by
  `runS`, which threads the `lastY` level and the AMI/CMI polarity across
  bits, and the scheme dispatch of `drawWaveform` (lines 303-331).

Pixel coordinates: in the source, `x = padding + i * bitWidth`, half-bit
offsets are `x + width / 2`, and the rails are the constants `voltageHigh`,
`voltageZero`, `voltageLow`.  The embedding abstracts pixels to the half-bit
position `pos2` and the three symbolic rails, which is exactly the
information the drawing calls carry once `padding`/`bitWidth`/zoom scaling
is stripped.
-/

/-- The three voltage rails `voltageHigh` / `voltageZero` / `voltageLow`
of app.js lines 197-199. -/
inductive Level : Type
  | high : Level
  | zero : Level
  | low : Level
deriving DecidableEq

/-- One emitted canvas point: position in half-bit units, rail, and whether
it was emitted by `moveTo` (`move = true`, pen up / new subpath) or by
`lineTo` (`move = false`, pen down). -/
structure Vertex : Type where
  pos2 : Nat
  level : Level
  move : Bool
deriving DecidableEq

/-! ### Text to binary (app.js lines 138-148) -/

/-- Binary digits of `n`, least significant first, as the digit characters
that JavaScript `Number.prototype.toString(2)` produces.  `fuel` bounds the
recursion; `fuel = n` always suffices. -/
def bitsLSBCore : Nat → Nat → List Char
  | 0, _ => []
  | _ + 1, 0 => []
  | fuel + 1, n + 1 =>
    (if (n + 1) % 2 = 1 then '1' else '0') :: bitsLSBCore fuel ((n + 1) / 2)

/-- Binary digits of `n`, least significant first. -/
def bitsLSB (n : Nat) : List Char := bitsLSBCore n n

/-- JavaScript `code.toString(2)`: most-significant-bit-first binary digit
characters, `"0"` for zero, no leading zeros otherwise. -/
def natToString2 (n : Nat) : List Char :=
  if n = 0 then ['0'] else (bitsLSB n).reverse

/-- JavaScript `String.prototype.padStart(w, c)`: left-pad to width `w`
with `c`; a string already at least `w` long is returned unchanged. -/
def padStart (w : Nat) (c : Char) (l : List Char) : List Char :=
  List.replicate (w - l.length) c ++ l

/-- app.js lines 138-141: `charToBinary` returns
`code.toString(2).padStart(8, '0')`.  The character is represented by its
numeric code point. -/
def charToBinary (code : Nat) : List Char :=
  padStart 8 '0' (natToString2 code)

/-- app.js lines 146-148: `stringToBinary` maps `charToBinary` over the
characters (here: their code points) and concatenates. -/
def stringToBinary (codes : List Nat) : List Char :=
  (codes.map charToBinary).flatten

/-- Value of a most-significant-bit-first binary digit string (the standard
decoding used to state the round-trip law). -/
def bitsVal (l : List Char) : Nat :=
  l.foldl (fun a c => 2 * a + (if c = '1' then 1 else 0)) 0

/-- Regrouping a digit string into 8-character groups (standard 8-bit
grouping used to state the round-trip law). -/
def chunks8 : List Char → List (List Char)
  | [] => []
  | c :: cs => (c :: cs.take 7) :: chunks8 (cs.drop 7)
termination_by l => l.length
decreasing_by simp_wf; have := List.length_drop 7 cs; omega

/-! ### Per-scheme levels (app.js lines 353-469)

In `drawWaveform` the schemes are called with these rails (lines 305-327):
NRZ gets `(voltageHigh, voltageZero)` as its `(high, low)` parameters, RZ
gets all three rails, Manchester gets `(voltageHigh, voltageLow)`, AMI gets
all three, and CMI gets `(voltageHigh, voltageZero)` as `(high, low)`. -/

/-- NRZ-L level of a bit (app.js line 354): `bit === '1' ? high : low`,
where the `low` parameter is `voltageZero`. -/
def nrzLevel (bit : Char) : Level :=
  if bit = '1' then Level.high else Level.zero

/-- RZ first-half level (app.js lines 366-388): `high` for `'1'`, `low`
(the `voltageLow` rail) otherwise. -/
def rzFirst (bit : Char) : Level :=
  if bit = '1' then Level.high else Level.low

/-- Manchester first-half level (app.js lines 392-414): `low` for `'1'`,
`high` otherwise, rails `voltageHigh` / `voltageLow`. -/
def manFirst (bit : Char) : Level :=
  if bit = '1' then Level.low else Level.high

/-- Manchester second-half level: `high` for `'1'`, `low` otherwise. -/
def manSecond (bit : Char) : Level :=
  if bit = '1' then Level.high else Level.low

/-- AMI level of a bit (app.js lines 420-424): `zero` for `'0'`, otherwise
`high` when the polarity is `1` and `low` when it is not. -/
def amiLevel (polarity : Int) (bit : Char) : Level :=
  if bit = '0' then Level.zero
  else if polarity = 1 then Level.high else Level.low

/-- AMI polarity update (app.js lines 418-425): unchanged for `'0'`,
negated otherwise. -/
def amiNextPol (polarity : Int) (bit : Char) : Int :=
  if bit = '0' then polarity else -polarity

/-- CMI level of a 1-bit (app.js line 443): `high` when the polarity is
`1`, else the `low` parameter, which `drawWaveform` binds to
`voltageZero` (line 327). -/
def cmiOneLevel (polarity : Int) : Level :=
  if polarity = 1 then Level.high else Level.zero

/-- CMI polarity update (app.js lines 444, 467): negated by a `'1'` bit,
unchanged otherwise. -/
def cmiNextPol (polarity : Int) (bit : Char) : Int :=
  if bit = '1' then -polarity else polarity

/-! ### The five drawing functions

Each returns the list of emitted vertices for one bit together with the
`lastY` value the `drawWaveform` loop carries to the next bit (and, for
AMI/CMI, the updated polarity).  The vertex lists transcribe the
`moveTo`/`lineTo` calls of app.js lines 353-469 one-to-one. -/

/-- app.js lines 353-363.  `index = 0` emits `moveTo(x, y)`; otherwise, if
the level changed, `lineTo(x, lastY); lineTo(x, y)`; then
`lineTo(x + width, y)`.  The loop then sets `lastY` to the bit's level
(line 306). -/
def drawNRZ (i : Nat) (lastY : Level) (bit : Char) : List Vertex × Level :=
  ((if i = 0 then [Vertex.mk (2 * i) (nrzLevel bit) true]
    else if lastY = nrzLevel bit then []
    else [Vertex.mk (2 * i) lastY false, Vertex.mk (2 * i) (nrzLevel bit) false])
    ++ [Vertex.mk (2 * i + 2) (nrzLevel bit) false],
   nrzLevel bit)

/-- app.js lines 365-389.  Both branches: at `index = 0` a `moveTo` to the
first-half rail, otherwise `lineTo(x, lastY)` always, plus a `lineTo` to
the first-half rail when the level changed; then the first half at
`rzFirst`, a mid-bit drop to `zero`, and the second half at `zero`.  The
loop sets `lastY = voltageZero` (line 311). -/
def drawRZ (i : Nat) (lastY : Level) (bit : Char) : List Vertex × Level :=
  ((if i = 0 then [Vertex.mk (2 * i) (rzFirst bit) true]
    else Vertex.mk (2 * i) lastY false ::
      (if lastY = rzFirst bit then [] else [Vertex.mk (2 * i) (rzFirst bit) false]))
    ++ [Vertex.mk (2 * i + 1) (rzFirst bit) false,
        Vertex.mk (2 * i + 1) Level.zero false,
        Vertex.mk (2 * i + 2) Level.zero false],
   Level.zero)

/-- app.js lines 391-415.  At `index = 0` a `moveTo` to the first-half
rail; otherwise only when `lastY` differs from the first-half rail:
`lineTo(x, lastY); lineTo(x, firstHalf)`.  Then first half, mid-bit
transition, second half.  The loop sets `lastY` to the second-half level
(line 316). -/
def drawManchester (i : Nat) (lastY : Level) (bit : Char) : List Vertex × Level :=
  ((if i = 0 then [Vertex.mk (2 * i) (manFirst bit) true]
    else if lastY = manFirst bit then []
    else [Vertex.mk (2 * i) lastY false, Vertex.mk (2 * i) (manFirst bit) false])
    ++ [Vertex.mk (2 * i + 1) (manFirst bit) false,
        Vertex.mk (2 * i + 1) (manSecond bit) false,
        Vertex.mk (2 * i + 2) (manSecond bit) false],
   manSecond bit)

/-- app.js lines 417-436.  `newY = amiLevel`, `newPolarity = amiNextPol`;
at `index = 0` a `moveTo(x, newY)`, otherwise `lineTo(x, lastY)` always
plus `lineTo(x, newY)` when the level changed; then the full flat bit
`lineTo(x + width, newY)`. -/
def drawAMI (i : Nat) (lastY : Level) (polarity : Int) (bit : Char) :
    List Vertex × Level × Int :=
  ((if i = 0 then [Vertex.mk (2 * i) (amiLevel polarity bit) true]
    else Vertex.mk (2 * i) lastY false ::
      (if lastY = amiLevel polarity bit then []
       else [Vertex.mk (2 * i) (amiLevel polarity bit) false]))
    ++ [Vertex.mk (2 * i + 2) (amiLevel polarity bit) false],
   amiLevel polarity bit, amiNextPol polarity bit)

/-- app.js lines 438-469.  For `'1'`: a full flat bit at `cmiOneLevel`,
polarity negated.  Otherwise (the `else` branch, reached by every bit that
is not `'1'`): `zero` on the first half, an unconditional mid-bit upward
transition, `high` on the second half, polarity unchanged, returned
`lastY = high`. -/
def drawCMI (i : Nat) (lastY : Level) (polarity : Int) (bit : Char) :
    List Vertex × Level × Int :=
  if bit = '1' then
    ((if i = 0 then [Vertex.mk (2 * i) (cmiOneLevel polarity) true]
      else Vertex.mk (2 * i) lastY false ::
        (if lastY = cmiOneLevel polarity then []
         else [Vertex.mk (2 * i) (cmiOneLevel polarity) false]))
      ++ [Vertex.mk (2 * i + 2) (cmiOneLevel polarity) false],
     cmiOneLevel polarity, -polarity)
  else
    ((if i = 0 then [Vertex.mk (2 * i) Level.zero true]
      else Vertex.mk (2 * i) lastY false ::
        (if lastY = Level.zero then [] else [Vertex.mk (2 * i) Level.zero false]))
      ++ [Vertex.mk (2 * i + 1) Level.zero false,
          Vertex.mk (2 * i + 1) Level.high false,
          Vertex.mk (2 * i + 2) Level.high false],
     Level.high, polarity)

/-! ### The per-bit loop of `drawWaveform` (app.js lines 293-334)

The loop is modelled generically over the per-scheme step function; the
state component `σ` is the AMI/CMI polarity (`Int`) or `Unit` for the
stateless schemes. -/

/-- One loop iteration as a uniform step: emitted vertices, next `lastY`,
next extra state. -/
def nrzStep (i : Nat) (lastY : Level) (_s : Unit) (bit : Char) :
    List Vertex × Level × Unit :=
  ((drawNRZ i lastY bit).1, (drawNRZ i lastY bit).2, ())

/-- `drawRZ` as a uniform step. -/
def rzStep (i : Nat) (lastY : Level) (_s : Unit) (bit : Char) :
    List Vertex × Level × Unit :=
  ((drawRZ i lastY bit).1, (drawRZ i lastY bit).2, ())

/-- `drawManchester` as a uniform step. -/
def manchesterStep (i : Nat) (lastY : Level) (_s : Unit) (bit : Char) :
    List Vertex × Level × Unit :=
  ((drawManchester i lastY bit).1, (drawManchester i lastY bit).2, ())

/-- The `for` loop of app.js lines 299-332: process the bits in order from
index `i`, threading `lastY` and the scheme state, concatenating the
emitted vertices. -/
def runS {σ : Type} (step : Nat → Level → σ → Char → List Vertex × Level × σ) :
    Nat → Level → σ → List Char → List Vertex
  | _, _, _, [] => []
  | i, lastY, s, bit :: rest =>
    (step i lastY s bit).1 ++
      runS step (i + 1) (step i lastY s bit).2.1 (step i lastY s bit).2.2 rest

/-- The `(lastY, state)` pair after one step (the step functions ignore the
index in their returned state, so index `1` is used as a representative). -/
def stepSt {σ : Type} (step : Nat → Level → σ → Char → List Vertex × Level × σ)
    (lastY : Level) (s : σ) (bit : Char) : Level × σ :=
  (step 1 lastY s bit).2

/-- The `(lastY, state)` pair after processing a list of bits. -/
def stAfter {σ : Type} (step : Nat → Level → σ → Char → List Vertex × Level × σ) :
    Level × σ → List Char → Level × σ
  | st, [] => st
  | st, bit :: rest => stAfter step (stepSt step st.1 st.2 bit) rest

/-- NRZ-L trace: the loop with `lastY` initialised to `voltageZero`
(app.js line 295). -/
def nrzTrace (binary : List Char) : List Vertex :=
  runS nrzStep 0 Level.zero () binary

/-- RZ trace. -/
def rzTrace (binary : List Char) : List Vertex :=
  runS rzStep 0 Level.zero () binary

/-- Manchester trace. -/
def manchesterTrace (binary : List Char) : List Vertex :=
  runS manchesterStep 0 Level.zero () binary

/-- AMI trace: initial polarity `+1` (app.js line 296). -/
def amiTrace (binary : List Char) : List Vertex :=
  runS drawAMI 0 Level.zero 1 binary

/-- CMI trace: initial polarity `-1` (app.js line 297). -/
def cmiTrace (binary : List Char) : List Vertex :=
  runS drawCMI 0 Level.zero (-1) binary

/-- The scheme dispatch of app.js lines 303-331: a `switch` over the
encoding identifier with no default case, so an unrecognized identifier
matches no case and the loop emits nothing. -/
def drawWaveform (binary : List Char) (encoding : String) : List Vertex :=
  if encoding = "nrz" then nrzTrace binary
  else if encoding = "rz" then rzTrace binary
  else if encoding = "manchester" then manchesterTrace binary
  else if encoding = "ami" then amiTrace binary
  else if encoding = "cmi" then cmiTrace binary
  else []

/-! ### Derived state observers used in the claim statements -/

/-- AMI polarity before bit `i` (initial polarity `+1`, app.js line 296). -/
def amiPolAt (bits : List Char) (i : Nat) : Int :=
  (bits.take i).foldl amiNextPol 1

/-- AMI per-bit level: the level `drawAMI` assigns to bit `i`. -/
def amiLevelAt (bits : List Char) (i : Nat) : Level :=
  amiLevel (amiPolAt bits i) (bits.getD i '0')

/-- CMI polarity before bit `i` (initial polarity `-1`, app.js line 297). -/
def cmiPolAt (bits : List Char) (i : Nat) : Int :=
  (bits.take i).foldl cmiNextPol (-1)

/-- The `lastY` value carried into bit `i`, i.e. the level at which the
previous bit ended (`voltageZero` before bit 0). -/
def prevLevel {σ : Type} (step : Nat → Level → σ → Char → List Vertex × Level × σ)
    (s0 : σ) (bits : List Char) (i : Nat) : Level :=
  (stAfter step (Level.zero, s0) (bits.take i)).1

/-- The extra scheme state carried into bit `i`. -/
def prevState {σ : Type} (step : Nat → Level → σ → Char → List Vertex × Level × σ)
    (s0 : σ) (bits : List Char) (i : Nat) : σ :=
  (stAfter step (Level.zero, s0) (bits.take i)).2

/-- The rail bit `i` jumps to at its left boundary, per scheme. -/
def nrzStart (bits : List Char) (i : Nat) : Level := nrzLevel (bits.getD i '0')

/-- RZ boundary rail of bit `i`: its first-half level. -/
def rzStart (bits : List Char) (i : Nat) : Level := rzFirst (bits.getD i '0')

/-- Manchester boundary rail of bit `i`: its first-half level. -/
def manStart (bits : List Char) (i : Nat) : Level := manFirst (bits.getD i '0')

/-- AMI boundary rail of bit `i`. -/
def amiStart (bits : List Char) (i : Nat) : Level :=
  amiLevel (amiPolAt bits i) (bits.getD i '0')

/-- CMI boundary rail of bit `i`: `cmiOneLevel` for a `'1'`, else `zero`. -/
def cmiStart (bits : List Char) (i : Nat) : Level :=
  if bits.getD i '0' = '1' then cmiOneLevel (cmiPolAt bits i) else Level.zero

/-- A trace is one connected polyline: it starts with a single pen-up
(`moveTo`) vertex and every later vertex is a pen-down (`lineTo`)
continuation. -/
def penDiscipline (t : List Vertex) : Prop :=
  ∃ v rest, t = v :: rest ∧ v.move = true ∧ ∀ u ∈ rest, u.move = false

/-- The trace contains, as two consecutive pen-down vertices, a vertical
segment at position `pos` from rail `a` to rail `b`. -/
def verticalPairAt (t : List Vertex) (pos : Nat) (a b : Level) : Prop :=
  ∃ p q, t = p ++ [Vertex.mk pos a false, Vertex.mk pos b false] ++ q

/-- The trace contains no vertical segment at position `pos`: any two
consecutive vertices at that position are at the same rail. -/
def noVerticalAt (t : List Vertex) (pos : Nat) : Prop :=
  ∀ a b m1 m2 p q,
    t = p ++ [Vertex.mk pos a m1, Vertex.mk pos b m2] ++ q → a = b

/-- Behaviour at the left boundary of bit `i`: a level change is drawn as a
pen-down vertical segment from the previous ending level to the new rail,
and no vertical segment exists there when the level is unchanged. -/
def boundaryOk (t : List Vertex) (i : Nat) (prev cur : Level) : Prop :=
  (prev ≠ cur → verticalPairAt t (2 * i) prev cur) ∧
  (prev = cur → noVerticalAt t (2 * i))

/-! ## Theorems

### Text to binary: supporting lemmas -/

lemma bitsVal_append_one (l : List Char) (c : Char) :
    bitsVal (l ++ [c]) = 2 * bitsVal l + (if c = '1' then 1 else 0) := by
  simp [bitsVal, List.foldl_append]

lemma bitsVal_replicate_zero_append (k : Nat) (l : List Char) :
    bitsVal (List.replicate k '0' ++ l) = bitsVal l := by
  induction k with
  | zero => simp
  | succ k ih => simpa [bitsVal, List.replicate_succ] using ih

lemma bitsVal_bitsLSBCore :
    ∀ fuel n, n ≤ fuel → bitsVal ((bitsLSBCore fuel n).reverse) = n := by
  intro fuel
  induction fuel with
  | zero =>
    intro n hn
    interval_cases n
    simp [bitsLSBCore, bitsVal]
  | succ fuel ih =>
    intro n hn
    match n with
    | 0 => simp [bitsLSBCore, bitsVal]
    | m + 1 =>
      have hdiv : (m + 1) / 2 ≤ fuel := by omega
      have hrec := ih ((m + 1) / 2) hdiv
      simp only [bitsLSBCore, List.reverse_cons]
      rw [bitsVal_append_one, hrec]
      by_cases h2 : (m + 1) % 2 = 1
      · rw [if_pos h2, if_pos rfl]
        omega
      · rw [if_neg h2, if_neg (by decide : ¬('0' : Char) = '1')]
        omega

lemma bitsVal_natToString2 (n : Nat) : bitsVal (natToString2 n) = n := by
  unfold natToString2
  by_cases h : n = 0
  · subst h; simp [bitsVal]
  · rw [if_neg h]
    exact bitsVal_bitsLSBCore n n le_rfl

lemma bitsVal_charToBinary (c : Nat) : bitsVal (charToBinary c) = c := by
  unfold charToBinary padStart
  rw [bitsVal_replicate_zero_append, bitsVal_natToString2]

lemma length_bitsLSBCore_le :
    ∀ fuel n k, n ≤ fuel → n < 2 ^ k → (bitsLSBCore fuel n).length ≤ k := by
  intro fuel
  induction fuel with
  | zero =>
    intro n k hn _
    interval_cases n
    simp [bitsLSBCore]
  | succ fuel ih =>
    intro n k hn hk
    match n with
    | 0 => simp [bitsLSBCore]
    | m + 1 =>
      match k with
      | 0 => omega
      | k + 1 =>
        have h2 : (2 : Nat) ^ (k + 1) = 2 * 2 ^ k := by ring
        have hlt : (m + 1) / 2 < 2 ^ k := by omega
        have hle : (m + 1) / 2 ≤ fuel := by omega
        have := ih ((m + 1) / 2) k hle hlt
        simp only [bitsLSBCore, List.length_cons]
        omega

lemma length_bitsLSBCore_ge :
    ∀ fuel n k, n ≤ fuel → 2 ^ k ≤ n → k < (bitsLSBCore fuel n).length := by
  intro fuel
  induction fuel with
  | zero =>
    intro n k hn hk
    have : (0 : Nat) < 2 ^ k := Nat.pos_pow_of_pos k (by norm_num)
    omega
  | succ fuel ih =>
    intro n k hn hk
    have hpos : 0 < n := lt_of_lt_of_le (Nat.pos_pow_of_pos k (by norm_num)) hk
    match n with
    | m + 1 =>
      match k with
      | 0 => simp [bitsLSBCore]
      | k + 1 =>
        have h2 : (2 : Nat) ^ (k + 1) = 2 * 2 ^ k := by ring
        have hge : 2 ^ k ≤ (m + 1) / 2 := by omega
        have hle : (m + 1) / 2 ≤ fuel := by omega
        have := ih ((m + 1) / 2) k hle hge
        simp only [bitsLSBCore, List.length_cons]
        omega

lemma length_natToString2_le (c : Nat) (h : c < 256) :
    (natToString2 c).length ≤ 8 := by
  unfold natToString2
  by_cases h0 : c = 0
  · simp [h0]
  · rw [if_neg h0]
    simpa [bitsLSB] using length_bitsLSBCore_le c c 8 le_rfl (by norm_num at h ⊢; omega)

lemma length_charToBinary (c : Nat) (h : c < 256) : (charToBinary c).length = 8 := by
  have := length_natToString2_le c h
  simp only [charToBinary, padStart, List.length_append, List.length_replicate]
  omega

lemma le_length_charToBinary (c : Nat) : 8 ≤ (charToBinary c).length := by
  simp only [charToBinary, padStart, List.length_append, List.length_replicate]
  omega

lemma length_charToBinary_gt (c : Nat) (h : 255 < c) : 8 < (charToBinary c).length := by
  have h0 : c ≠ 0 := by omega
  have h9 : 8 < (natToString2 c).length := by
    unfold natToString2
    rw [if_neg h0]
    simpa [bitsLSB] using length_bitsLSBCore_ge c c 8 le_rfl (by norm_num; omega)
  simp only [charToBinary, padStart, List.length_append, List.length_replicate]
  omega

lemma chunks8_cons8 (l r : List Char) (h : l.length = 8) :
    chunks8 (l ++ r) = l :: chunks8 r := by
  match l with
  | c :: cs =>
    have h7 : cs.length = 7 := by simpa using h
    have htake : (cs ++ r).take 7 = cs := by
      rw [List.take_append_eq_append_take, h7]
      simp [List.take_of_length_le (le_of_eq h7)]
    have hdrop : (cs ++ r).drop 7 = r := by
      rw [List.drop_append_eq_append_drop, h7]
      simp [List.drop_of_length_le (le_of_eq h7)]
    simp [chunks8, htake, hdrop]

lemma encode_decode (codes : List Nat) (h : ∀ c ∈ codes, c < 256) :
    (stringToBinary codes).length = 8 * codes.length ∧
    (chunks8 (stringToBinary codes)).map bitsVal = codes := by
  induction codes with
  | nil => simp [stringToBinary, chunks8]
  | cons c cs ih =>
    have hc : c < 256 := h c (List.mem_cons_self c cs)
    have hcs : ∀ x ∈ cs, x < 256 := fun x hx => h x (List.mem_cons_of_mem c hx)
    have ih' := ih hcs
    have hsplit : stringToBinary (c :: cs) = charToBinary c ++ stringToBinary cs := by
      simp [stringToBinary]
    constructor
    · rw [hsplit, List.length_append, length_charToBinary c hc, ih'.1]
      simp only [List.length_cons]
      ring
    · rw [hsplit, chunks8_cons8 _ _ (length_charToBinary c hc), List.map_cons,
        bitsVal_charToBinary, ih'.2]

lemma length_stringToBinary_ge (codes : List Nat) :
    8 * codes.length ≤ (stringToBinary codes).length := by
  induction codes with
  | nil => simp [stringToBinary]
  | cons c cs ih =>
    have : stringToBinary (c :: cs) = charToBinary c ++ stringToBinary cs := by
      simp [stringToBinary]
    rw [this, List.length_append]
    have := le_length_charToBinary c
    simp only [List.length_cons]
    omega

/-! ### Generic lemmas about the per-bit loop `runS` -/

lemma foldl_take_succ {α β : Type} (f : β → α → β) (d : α) :
    ∀ (l : List α) (i : Nat) (b : β), i < l.length →
      (l.take (i + 1)).foldl f b = f ((l.take i).foldl f b) (l.getD i d) := by
  intro l
  induction l with
  | nil => intro i b h; simp at h
  | cons x xs ih =>
    intro i b h
    cases i with
    | zero => simp
    | succ i =>
      simp only [List.take_succ_cons, List.foldl_cons, List.getD_cons_succ]
      exact ih i (f b x) (by simpa using h)

lemma drop_eq_getD_cons :
    ∀ (l : List Char) (i : Nat), i < l.length →
      l.drop i = l.getD i '0' :: l.drop (i + 1) := by
  intro l
  induction l with
  | nil => intro i h; simp at h
  | cons x xs ih =>
    intro i h
    cases i with
    | zero => simp
    | succ i => simpa using ih i (by simpa using h)

lemma stAfter_take_succ {σ : Type}
    (step : Nat → Level → σ → Char → List Vertex × Level × σ) :
    ∀ (bits : List Char) (i : Nat) (st : Level × σ), i < bits.length →
      stAfter step st (bits.take (i + 1)) =
        stepSt step (stAfter step st (bits.take i)).1
          (stAfter step st (bits.take i)).2 (bits.getD i '0') := by
  intro bits
  induction bits with
  | nil => intro i st h; simp at h
  | cons x xs ih =>
    intro i st h
    cases i with
    | zero => simp [stAfter]
    | succ i =>
      simp only [List.take_succ_cons, stAfter, List.getD_cons_succ]
      exact ih i _ (by simpa using h)

lemma runS_append {σ : Type}
    (step : Nat → Level → σ → Char → List Vertex × Level × σ)
    (hst : ∀ i lastY s bit, (step i lastY s bit).2 = stepSt step lastY s bit) :
    ∀ (xs ys : List Char) (j : Nat) (lastY : Level) (s : σ),
      runS step j lastY s (xs ++ ys) =
        runS step j lastY s xs ++
          runS step (j + xs.length) (stAfter step (lastY, s) xs).1
            (stAfter step (lastY, s) xs).2 ys := by
  intro xs
  induction xs with
  | nil => intro ys j l s; simp [runS, stAfter]
  | cons b bs ih =>
    intro ys j l s
    simp only [List.cons_append, runS, List.length_cons, List.append_eq]
    rw [hst j l s b, ih ys (j + 1) (stepSt step l s b).1 (stepSt step l s b).2]
    have harith : j + 1 + bs.length = j + (bs.length + 1) := by omega
    have hstate : stAfter step ((stepSt step l s b).1, (stepSt step l s b).2) bs =
        stAfter step (l, s) (b :: bs) := by
      simp [stAfter]
    rw [List.append_assoc, harith, hstate]

lemma runS_moves {σ : Type}
    (step : Nat → Level → σ → Char → List Vertex × Level × σ)
    (hmv : ∀ i lastY s bit, i ≠ 0 → ∀ v ∈ (step i lastY s bit).1, v.move = false) :
    ∀ (bits : List Char) (j : Nat) (lastY : Level) (s : σ), j ≠ 0 →
      ∀ v ∈ runS step j lastY s bits, v.move = false := by
  intro bits
  induction bits with
  | nil => intro j l s hj v hv; simp [runS] at hv
  | cons b bs ih =>
    intro j l s hj v hv
    simp only [runS] at hv
    rcases List.mem_append.1 hv with h | h
    · exact hmv j l s b hj v h
    · exact ih (j + 1) _ _ (by omega) v h

lemma runS_pen {σ : Type}
    (step : Nat → Level → σ → Char → List Vertex × Level × σ)
    (hmv : ∀ i lastY s bit, i ≠ 0 → ∀ v ∈ (step i lastY s bit).1, v.move = false)
    (h0 : ∀ lastY s bit, ∃ L rest, (step 0 lastY s bit).1 =
      Vertex.mk 0 L true :: rest ∧ ∀ u ∈ rest, u.move = false) :
    ∀ (bits : List Char) (lastY : Level) (s : σ) (bit : Char),
      penDiscipline (runS step 0 lastY s (bit :: bits)) := by
  intro bits l s b
  obtain ⟨L, rest0, heq, hrest⟩ := h0 l s b
  refine ⟨Vertex.mk 0 L true,
    rest0 ++ runS step 1 (step 0 l s b).2.1 (step 0 l s b).2.2 bits, ?_, rfl, ?_⟩
  · simp [runS, heq]
  · intro u hu
    rcases List.mem_append.1 hu with h | h
    · exact hrest u h
    · exact runS_moves step hmv bits 1 _ _ (by omega) u h

lemma runS_pos_lb {σ : Type}
    (step : Nat → Level → σ → Char → List Vertex × Level × σ)
    (hpos : ∀ i lastY s bit, ∀ v ∈ (step i lastY s bit).1,
      2 * i ≤ v.pos2 ∧ v.pos2 ≤ 2 * i + 2) :
    ∀ (bits : List Char) (j : Nat) (lastY : Level) (s : σ),
      ∀ v ∈ runS step j lastY s bits, 2 * j ≤ v.pos2 := by
  intro bits
  induction bits with
  | nil => intro j l s v hv; simp [runS] at hv
  | cons b bs ih =>
    intro j l s v hv
    simp only [runS] at hv
    rcases List.mem_append.1 hv with h | h
    · exact (hpos j l s b v h).1
    · have := ih (j + 1) _ _ v h
      omega

lemma runS_pos_ub_level {σ : Type}
    (step : Nat → Level → σ → Char → List Vertex × Level × σ)
    (hst : ∀ i lastY s bit, (step i lastY s bit).2 = stepSt step lastY s bit)
    (hpos : ∀ i lastY s bit, ∀ v ∈ (step i lastY s bit).1,
      2 * i ≤ v.pos2 ∧ v.pos2 ≤ 2 * i + 2)
    (hend : ∀ i lastY s bit, ∀ v ∈ (step i lastY s bit).1,
      v.pos2 = 2 * i + 2 → v.level = (step i lastY s bit).2.1) :
    ∀ (bits : List Char) (j : Nat) (lastY : Level) (s : σ),
      ∀ v ∈ runS step j lastY s bits,
        v.pos2 ≤ 2 * (j + bits.length) ∧
          (v.pos2 = 2 * (j + bits.length) →
            v.level = (stAfter step (lastY, s) bits).1) := by
  intro bits
  induction bits with
  | nil => intro j l s v hv; simp [runS] at hv
  | cons b bs ih =>
    intro j l s v hv
    simp only [runS] at hv
    have hstate : stAfter step (l, s) (b :: bs) =
        stAfter step ((step j l s b).2.1, (step j l s b).2.2) bs := by
      rw [hst j l s b]
      simp [stAfter]
    rcases List.mem_append.1 hv with h | h
    · obtain ⟨h1, h2⟩ := hpos j l s b v h
      rcases List.eq_nil_or_concat bs with hbs | ⟨_, _, hbs⟩
      · subst hbs
        refine ⟨by simp; omega, fun hp => ?_⟩
        have : v.pos2 = 2 * j + 2 := by simpa using hp
        rw [hstate]
        simp only [stAfter]
        exact hend j l s b v h this
      · have hlen : 0 < bs.length := by subst hbs; simp
        constructor
        · simp only [List.length_cons]; omega
        · intro hp
          simp only [List.length_cons] at hp
          omega
    · obtain ⟨h1, h2⟩ := ih (j + 1) (step j l s b).2.1 (step j l s b).2.2 v h
      refine ⟨by simp only [List.length_cons]; omega, fun hp => ?_⟩
      rw [hstate]
      exact h2 (by simp only [List.length_cons] at hp; omega)

lemma runS_end_mem {σ : Type}
    (step : Nat → Level → σ → Char → List Vertex × Level × σ)
    (hst : ∀ i lastY s bit, (step i lastY s bit).2 = stepSt step lastY s bit)
    (hem : ∀ i lastY s bit,
      Vertex.mk (2 * i + 2) ((step i lastY s bit).2.1) false ∈ (step i lastY s bit).1) :
    ∀ (bits : List Char) (j : Nat) (lastY : Level) (s : σ) (i : Nat),
      i < bits.length →
        Vertex.mk (2 * (j + i) + 2) ((stAfter step (lastY, s) (bits.take (i + 1))).1)
          false ∈ runS step j lastY s bits := by
  intro bits
  induction bits with
  | nil => intro j l s i h; simp at h
  | cons b bs ih =>
    intro j l s i h
    cases i with
    | zero =>
      have : stAfter step (l, s) ((b :: bs).take 1) = stepSt step l s b := by
        simp [stAfter]
      rw [this, ← hst j l s b]
      simp only [runS]
      refine List.mem_append.2 (Or.inl ?_)
      simpa using hem j l s b
    | succ i =>
      have hlen : i < bs.length := by simpa using h
      have hstate : stAfter step (l, s) ((b :: bs).take (i + 2)) =
          stAfter step ((step j l s b).2.1, (step j l s b).2.2) (bs.take (i + 1)) := by
        rw [hst j l s b]
        simp [stAfter]
      have := ih (j + 1) (step j l s b).2.1 (step j l s b).2.2 i hlen
      have harith : 2 * (j + 1 + i) + 2 = 2 * (j + (i + 1)) + 2 := by omega
      rw [harith] at this
      rw [hstate]
      simp only [runS]
      exact List.mem_append.2 (Or.inr this)

lemma runS_mid {σ : Type}
    (step : Nat → Level → σ → Char → List Vertex × Level × σ)
    (cond : Char → Prop) (A B : Char → Level)
    (hmid : ∀ i lastY s bit, cond bit → ∃ hd, (step i lastY s bit).1 =
      hd ++ [Vertex.mk (2 * i + 1) (A bit) false, Vertex.mk (2 * i + 1) (B bit) false,
             Vertex.mk (2 * i + 2) (B bit) false]) :
    ∀ (bits : List Char) (j : Nat) (lastY : Level) (s : σ) (i : Nat),
      i < bits.length → cond (bits.getD i '0') →
        ∃ p q, runS step j lastY s bits =
          p ++ [Vertex.mk (2 * (j + i) + 1) (A (bits.getD i '0')) false,
                Vertex.mk (2 * (j + i) + 1) (B (bits.getD i '0')) false,
                Vertex.mk (2 * (j + i) + 2) (B (bits.getD i '0')) false] ++ q := by
  intro bits
  induction bits with
  | nil => intro j l s i h; simp at h
  | cons b bs ih =>
    intro j l s i h hc
    cases i with
    | zero =>
      simp only [List.getD_cons_zero] at hc ⊢
      obtain ⟨hd, hhd⟩ := hmid j l s b hc
      refine ⟨hd, runS step (j + 1) (step j l s b).2.1 (step j l s b).2.2 bs, ?_⟩
      simp only [runS, hhd]
      simp [List.append_assoc]
    | succ i =>
      have hlen : i < bs.length := by simpa using h
      simp only [List.getD_cons_succ] at hc ⊢
      obtain ⟨p, q, hpq⟩ := ih (j + 1) (step j l s b).2.1 (step j l s b).2.2 i hlen hc
      have harith : 2 * (j + 1 + i) = 2 * (j + (i + 1)) := by omega
      rw [harith] at hpq
      refine ⟨(step j l s b).1 ++ p, q, ?_⟩
      simp only [runS, hpq]
      simp [List.append_assoc]

lemma runS_boundary {σ : Type}
    (step : Nat → Level → σ → Char → List Vertex × Level × σ)
    (startF : Level → σ → Char → Level)
    (hst : ∀ i lastY s bit, (step i lastY s bit).2 = stepSt step lastY s bit)
    (hpos : ∀ i lastY s bit, ∀ v ∈ (step i lastY s bit).1,
      2 * i ≤ v.pos2 ∧ v.pos2 ≤ 2 * i + 2)
    (hend : ∀ i lastY s bit, ∀ v ∈ (step i lastY s bit).1,
      v.pos2 = 2 * i + 2 → v.level = (step i lastY s bit).2.1)
    (hchg : ∀ i lastY s bit, i ≠ 0 → lastY ≠ startF lastY s bit →
      ∃ q, (step i lastY s bit).1 =
        Vertex.mk (2 * i) lastY false :: Vertex.mk (2 * i) (startF lastY s bit) false :: q)
    (hsame : ∀ i lastY s bit, i ≠ 0 → lastY = startF lastY s bit →
      ∀ v ∈ (step i lastY s bit).1, v.pos2 = 2 * i → v.level = lastY) :
    ∀ (bits : List Char) (l0 : Level) (s0 : σ) (i : Nat), 0 < i → i < bits.length →
      boundaryOk (runS step 0 l0 s0 bits) i
        ((stAfter step (l0, s0) (bits.take i)).1)
        (startF ((stAfter step (l0, s0) (bits.take i)).1)
          ((stAfter step (l0, s0) (bits.take i)).2) (bits.getD i '0')) := by
  intro bits l0 s0 i hi hilen
  set L := (stAfter step (l0, s0) (bits.take i)).1 with hL
  set S := (stAfter step (l0, s0) (bits.take i)).2 with hS
  set b := bits.getD i '0' with hb
  have hlen_take : (bits.take i).length = i := by
    simp [List.length_take]
    omega
  have htr : runS step 0 l0 s0 bits =
      runS step 0 l0 s0 (bits.take i) ++
        ((step i L S b).1 ++
          runS step (i + 1) (step i L S b).2.1 (step i L S b).2.2
            (bits.drop (i + 1))) := by
    conv_lhs => rw [← List.take_append_drop i bits]
    rw [runS_append step hst, hlen_take, drop_eq_getD_cons bits i hilen,
      ← hL, ← hS, ← hb]
    simp only [runS, Nat.zero_add]
  constructor
  · intro hne
    obtain ⟨q, hq⟩ := hchg i L S b (by omega) hne
    refine ⟨runS step 0 l0 s0 (bits.take i),
      q ++ runS step (i + 1) (step i L S b).2.1 (step i L S b).2.2
        (bits.drop (i + 1)), ?_⟩
    rw [htr, hq]
    simp [List.append_assoc]
  · intro hsm a c m1 m2 p q heq
    have hall : ∀ v ∈ runS step 0 l0 s0 bits, v.pos2 = 2 * i → v.level = L := by
      intro v hv hvp
      rw [htr] at hv
      rcases List.mem_append.1 hv with hA | hB
      · obtain ⟨hub, hlev⟩ :=
          runS_pos_ub_level step hst hpos hend (bits.take i) 0 l0 s0 v hA
        rw [hlen_take] at hlev
        exact hlev (by omega)
      · rcases List.mem_append.1 hB with hblk | hrest
        · exact hsame i L S b (by omega) hsm v hblk hvp
        · have := runS_pos_lb step hpos (bits.drop (i + 1)) (i + 1) _ _ v hrest
          omega
    have h1 : Vertex.mk (2 * i) a m1 ∈ runS step 0 l0 s0 bits := by
      rw [heq]; simp
    have h2 : Vertex.mk (2 * i) c m2 ∈ runS step 0 l0 s0 bits := by
      rw [heq]; simp
    have ha := hall _ h1 rfl
    have hc := hall _ h2 rfl
    exact ha.trans hc.symm

/-! ### NRZ-L: discharge of the step hypotheses -/

lemma nrzStep_st (i : Nat) (l : Level) (s : Unit) (b : Char) :
    (nrzStep i l s b).2 = stepSt nrzStep l s b := rfl

lemma nrz_moves (i : Nat) (l : Level) (s : Unit) (b : Char) (hi : i ≠ 0) :
    ∀ v ∈ (nrzStep i l s b).1, v.move = false := by
  intro v hv
  simp only [nrzStep, drawNRZ, if_neg hi] at hv
  by_cases hl : l = nrzLevel b
  · rw [if_pos hl] at hv
    simp at hv
    subst hv
    rfl
  · rw [if_neg hl] at hv
    simp at hv
    rcases hv with rfl | rfl | rfl <;> rfl

lemma nrz_zero (l : Level) (s : Unit) (b : Char) :
    ∃ L rest, (nrzStep 0 l s b).1 = Vertex.mk 0 L true :: rest ∧
      ∀ u ∈ rest, u.move = false := by
  refine ⟨nrzLevel b, [Vertex.mk 2 (nrzLevel b) false], ?_, ?_⟩
  · simp [nrzStep, drawNRZ]
  · intro u hu
    simp at hu
    subst hu
    rfl

lemma nrz_pos (i : Nat) (l : Level) (s : Unit) (b : Char) :
    ∀ v ∈ (nrzStep i l s b).1, 2 * i ≤ v.pos2 ∧ v.pos2 ≤ 2 * i + 2 := by
  intro v hv
  simp only [nrzStep, drawNRZ] at hv
  by_cases hi : i = 0
  · rw [if_pos hi] at hv
    simp at hv
    rcases hv with rfl | rfl <;> simp
  · rw [if_neg hi] at hv
    by_cases hl : l = nrzLevel b
    · rw [if_pos hl] at hv
      simp at hv
      subst hv
      simp
    · rw [if_neg hl] at hv
      simp at hv
      rcases hv with rfl | rfl | rfl <;> simp

lemma nrz_end (i : Nat) (l : Level) (s : Unit) (b : Char) :
    ∀ v ∈ (nrzStep i l s b).1, v.pos2 = 2 * i + 2 →
      v.level = (nrzStep i l s b).2.1 := by
  intro v hv hp
  simp only [nrzStep, drawNRZ] at hv ⊢
  by_cases hi : i = 0
  · rw [if_pos hi] at hv
    simp at hv
    rcases hv with rfl | rfl
    · exact absurd (show 2 * i = 2 * i + 2 from hp) (by omega)
    · rfl
  · rw [if_neg hi] at hv
    by_cases hl : l = nrzLevel b
    · rw [if_pos hl] at hv
      simp at hv
      subst hv
      rfl
    · rw [if_neg hl] at hv
      simp at hv
      rcases hv with rfl | rfl | rfl
      · exact absurd (show 2 * i = 2 * i + 2 from hp) (by omega)
      · exact absurd (show 2 * i = 2 * i + 2 from hp) (by omega)
      · rfl

lemma nrz_em (i : Nat) (l : Level) (s : Unit) (b : Char) :
    Vertex.mk (2 * i + 2) ((nrzStep i l s b).2.1) false ∈ (nrzStep i l s b).1 := by
  simp [nrzStep, drawNRZ]

lemma nrz_chg (i : Nat) (l : Level) (s : Unit) (b : Char) (hi : i ≠ 0)
    (hne : l ≠ nrzLevel b) :
    ∃ q, (nrzStep i l s b).1 =
      Vertex.mk (2 * i) l false :: Vertex.mk (2 * i) (nrzLevel b) false :: q := by
  refine ⟨[Vertex.mk (2 * i + 2) (nrzLevel b) false], ?_⟩
  simp [nrzStep, drawNRZ, if_neg hi, if_neg hne]

lemma nrz_same (i : Nat) (l : Level) (s : Unit) (b : Char) (hi : i ≠ 0)
    (hsm : l = nrzLevel b) :
    ∀ v ∈ (nrzStep i l s b).1, v.pos2 = 2 * i → v.level = l := by
  intro v hv hp
  simp only [nrzStep, drawNRZ, if_neg hi, if_pos hsm] at hv
  simp at hv
  subst hv
  exact absurd (show 2 * i + 2 = 2 * i from hp) (by omega)

/-! ### RZ: discharge of the step hypotheses -/

lemma rzStep_st (i : Nat) (l : Level) (s : Unit) (b : Char) :
    (rzStep i l s b).2 = stepSt rzStep l s b := rfl

lemma rz_moves (i : Nat) (l : Level) (s : Unit) (b : Char) (hi : i ≠ 0) :
    ∀ v ∈ (rzStep i l s b).1, v.move = false := by
  intro v hv
  simp only [rzStep, drawRZ, if_neg hi] at hv
  by_cases hl : l = rzFirst b
  · rw [if_pos hl] at hv
    simp at hv
    rcases hv with rfl | rfl | rfl | rfl <;> rfl
  · rw [if_neg hl] at hv
    simp at hv
    rcases hv with rfl | rfl | rfl | rfl | rfl <;> rfl

lemma rz_zero (l : Level) (s : Unit) (b : Char) :
    ∃ L rest, (rzStep 0 l s b).1 = Vertex.mk 0 L true :: rest ∧
      ∀ u ∈ rest, u.move = false := by
  refine ⟨rzFirst b,
    [Vertex.mk 1 (rzFirst b) false, Vertex.mk 1 Level.zero false,
     Vertex.mk 2 Level.zero false], ?_, ?_⟩
  · simp [rzStep, drawRZ]
  · intro u hu
    simp at hu
    rcases hu with rfl | rfl | rfl <;> rfl

lemma rz_pos (i : Nat) (l : Level) (s : Unit) (b : Char) :
    ∀ v ∈ (rzStep i l s b).1, 2 * i ≤ v.pos2 ∧ v.pos2 ≤ 2 * i + 2 := by
  intro v hv
  simp only [rzStep, drawRZ] at hv
  by_cases hi : i = 0
  · rw [if_pos hi] at hv
    simp at hv
    rcases hv with rfl | rfl | rfl | rfl <;> simp
  · rw [if_neg hi] at hv
    by_cases hl : l = rzFirst b
    · rw [if_pos hl] at hv
      simp at hv
      rcases hv with rfl | rfl | rfl | rfl <;> simp
    · rw [if_neg hl] at hv
      simp at hv
      rcases hv with rfl | rfl | rfl | rfl | rfl <;> simp

lemma rz_end (i : Nat) (l : Level) (s : Unit) (b : Char) :
    ∀ v ∈ (rzStep i l s b).1, v.pos2 = 2 * i + 2 →
      v.level = (rzStep i l s b).2.1 := by
  intro v hv hp
  simp only [rzStep, drawRZ] at hv ⊢
  by_cases hi : i = 0
  · rw [if_pos hi] at hv
    simp at hv
    rcases hv with rfl | rfl | rfl | rfl
    · exact absurd (show 2 * i = 2 * i + 2 from hp) (by omega)
    · exact absurd (show 2 * i + 1 = 2 * i + 2 from hp) (by omega)
    · exact absurd (show 2 * i + 1 = 2 * i + 2 from hp) (by omega)
    · rfl
  · rw [if_neg hi] at hv
    by_cases hl : l = rzFirst b
    · rw [if_pos hl] at hv
      simp at hv
      rcases hv with rfl | rfl | rfl | rfl
      · exact absurd (show 2 * i = 2 * i + 2 from hp) (by omega)
      · exact absurd (show 2 * i + 1 = 2 * i + 2 from hp) (by omega)
      · exact absurd (show 2 * i + 1 = 2 * i + 2 from hp) (by omega)
      · rfl
    · rw [if_neg hl] at hv
      simp at hv
      rcases hv with rfl | rfl | rfl | rfl | rfl
      · exact absurd (show 2 * i = 2 * i + 2 from hp) (by omega)
      · exact absurd (show 2 * i = 2 * i + 2 from hp) (by omega)
      · exact absurd (show 2 * i + 1 = 2 * i + 2 from hp) (by omega)
      · exact absurd (show 2 * i + 1 = 2 * i + 2 from hp) (by omega)
      · rfl

lemma rz_em (i : Nat) (l : Level) (s : Unit) (b : Char) :
    Vertex.mk (2 * i + 2) ((rzStep i l s b).2.1) false ∈ (rzStep i l s b).1 := by
  simp [rzStep, drawRZ]

lemma rz_chg (i : Nat) (l : Level) (s : Unit) (b : Char) (hi : i ≠ 0)
    (hne : l ≠ rzFirst b) :
    ∃ q, (rzStep i l s b).1 =
      Vertex.mk (2 * i) l false :: Vertex.mk (2 * i) (rzFirst b) false :: q := by
  refine ⟨[Vertex.mk (2 * i + 1) (rzFirst b) false, Vertex.mk (2 * i + 1) Level.zero false,
    Vertex.mk (2 * i + 2) Level.zero false], ?_⟩
  simp [rzStep, drawRZ, if_neg hi, if_neg hne]

lemma rz_same (i : Nat) (l : Level) (s : Unit) (b : Char) (hi : i ≠ 0)
    (hsm : l = rzFirst b) :
    ∀ v ∈ (rzStep i l s b).1, v.pos2 = 2 * i → v.level = l := by
  intro v hv hp
  simp only [rzStep, drawRZ, if_neg hi, if_pos hsm] at hv
  simp at hv
  rcases hv with rfl | rfl | rfl | rfl
  · rfl
  · exact absurd (show 2 * i + 1 = 2 * i from hp) (by omega)
  · exact absurd (show 2 * i + 1 = 2 * i from hp) (by omega)
  · exact absurd (show 2 * i + 2 = 2 * i from hp) (by omega)

lemma rz_mid (i : Nat) (l : Level) (s : Unit) (b : Char) :
    ∃ hd, (rzStep i l s b).1 = hd ++
      [Vertex.mk (2 * i + 1) (rzFirst b) false, Vertex.mk (2 * i + 1) Level.zero false,
       Vertex.mk (2 * i + 2) Level.zero false] := by
  refine ⟨(if i = 0 then [Vertex.mk (2 * i) (rzFirst b) true]
    else Vertex.mk (2 * i) l false ::
      (if l = rzFirst b then [] else [Vertex.mk (2 * i) (rzFirst b) false])), ?_⟩
  simp [rzStep, drawRZ]

/-! ### Manchester: discharge of the step hypotheses -/

lemma manchesterStep_st (i : Nat) (l : Level) (s : Unit) (b : Char) :
    (manchesterStep i l s b).2 = stepSt manchesterStep l s b := rfl

lemma man_moves (i : Nat) (l : Level) (s : Unit) (b : Char) (hi : i ≠ 0) :
    ∀ v ∈ (manchesterStep i l s b).1, v.move = false := by
  intro v hv
  simp only [manchesterStep, drawManchester, if_neg hi] at hv
  by_cases hl : l = manFirst b
  · rw [if_pos hl] at hv
    simp at hv
    rcases hv with rfl | rfl | rfl <;> rfl
  · rw [if_neg hl] at hv
    simp at hv
    rcases hv with rfl | rfl | rfl | rfl | rfl <;> rfl

lemma man_zero (l : Level) (s : Unit) (b : Char) :
    ∃ L rest, (manchesterStep 0 l s b).1 = Vertex.mk 0 L true :: rest ∧
      ∀ u ∈ rest, u.move = false := by
  refine ⟨manFirst b,
    [Vertex.mk 1 (manFirst b) false, Vertex.mk 1 (manSecond b) false,
     Vertex.mk 2 (manSecond b) false], ?_, ?_⟩
  · simp [manchesterStep, drawManchester]
  · intro u hu
    simp at hu
    rcases hu with rfl | rfl | rfl <;> rfl

lemma man_pos (i : Nat) (l : Level) (s : Unit) (b : Char) :
    ∀ v ∈ (manchesterStep i l s b).1, 2 * i ≤ v.pos2 ∧ v.pos2 ≤ 2 * i + 2 := by
  intro v hv
  simp only [manchesterStep, drawManchester] at hv
  by_cases hi : i = 0
  · rw [if_pos hi] at hv
    simp at hv
    rcases hv with rfl | rfl | rfl | rfl <;> simp
  · rw [if_neg hi] at hv
    by_cases hl : l = manFirst b
    · rw [if_pos hl] at hv
      simp at hv
      rcases hv with rfl | rfl | rfl <;> simp
    · rw [if_neg hl] at hv
      simp at hv
      rcases hv with rfl | rfl | rfl | rfl | rfl <;> simp

lemma man_end (i : Nat) (l : Level) (s : Unit) (b : Char) :
    ∀ v ∈ (manchesterStep i l s b).1, v.pos2 = 2 * i + 2 →
      v.level = (manchesterStep i l s b).2.1 := by
  intro v hv hp
  simp only [manchesterStep, drawManchester] at hv ⊢
  by_cases hi : i = 0
  · rw [if_pos hi] at hv
    simp at hv
    rcases hv with rfl | rfl | rfl | rfl
    · exact absurd (show 2 * i = 2 * i + 2 from hp) (by omega)
    · exact absurd (show 2 * i + 1 = 2 * i + 2 from hp) (by omega)
    · exact absurd (show 2 * i + 1 = 2 * i + 2 from hp) (by omega)
    · rfl
  · rw [if_neg hi] at hv
    by_cases hl : l = manFirst b
    · rw [if_pos hl] at hv
      simp at hv
      rcases hv with rfl | rfl | rfl
      · exact absurd (show 2 * i + 1 = 2 * i + 2 from hp) (by omega)
      · exact absurd (show 2 * i + 1 = 2 * i + 2 from hp) (by omega)
      · rfl
    · rw [if_neg hl] at hv
      simp at hv
      rcases hv with rfl | rfl | rfl | rfl | rfl
      · exact absurd (show 2 * i = 2 * i + 2 from hp) (by omega)
      · exact absurd (show 2 * i = 2 * i + 2 from hp) (by omega)
      · exact absurd (show 2 * i + 1 = 2 * i + 2 from hp) (by omega)
      · exact absurd (show 2 * i + 1 = 2 * i + 2 from hp) (by omega)
      · rfl

lemma man_em (i : Nat) (l : Level) (s : Unit) (b : Char) :
    Vertex.mk (2 * i + 2) ((manchesterStep i l s b).2.1) false ∈
      (manchesterStep i l s b).1 := by
  simp [manchesterStep, drawManchester]

lemma man_chg (i : Nat) (l : Level) (s : Unit) (b : Char) (hi : i ≠ 0)
    (hne : l ≠ manFirst b) :
    ∃ q, (manchesterStep i l s b).1 =
      Vertex.mk (2 * i) l false :: Vertex.mk (2 * i) (manFirst b) false :: q := by
  refine ⟨[Vertex.mk (2 * i + 1) (manFirst b) false,
    Vertex.mk (2 * i + 1) (manSecond b) false,
    Vertex.mk (2 * i + 2) (manSecond b) false], ?_⟩
  simp [manchesterStep, drawManchester, if_neg hi, if_neg hne]

lemma man_same (i : Nat) (l : Level) (s : Unit) (b : Char) (hi : i ≠ 0)
    (hsm : l = manFirst b) :
    ∀ v ∈ (manchesterStep i l s b).1, v.pos2 = 2 * i → v.level = l := by
  intro v hv hp
  simp only [manchesterStep, drawManchester, if_neg hi, if_pos hsm] at hv
  simp at hv
  rcases hv with rfl | rfl | rfl
  · exact absurd (show 2 * i + 1 = 2 * i from hp) (by omega)
  · exact absurd (show 2 * i + 1 = 2 * i from hp) (by omega)
  · exact absurd (show 2 * i + 2 = 2 * i from hp) (by omega)

lemma man_mid (i : Nat) (l : Level) (s : Unit) (b : Char) :
    ∃ hd, (manchesterStep i l s b).1 = hd ++
      [Vertex.mk (2 * i + 1) (manFirst b) false,
       Vertex.mk (2 * i + 1) (manSecond b) false,
       Vertex.mk (2 * i + 2) (manSecond b) false] := by
  refine ⟨(if i = 0 then [Vertex.mk (2 * i) (manFirst b) true]
    else if l = manFirst b then []
    else [Vertex.mk (2 * i) l false, Vertex.mk (2 * i) (manFirst b) false]), ?_⟩
  simp [manchesterStep, drawManchester]

/-! ### AMI: discharge of the step hypotheses -/

lemma amiStep_st (i : Nat) (l : Level) (p : Int) (b : Char) :
    (drawAMI i l p b).2 = stepSt drawAMI l p b := rfl

lemma ami_moves (i : Nat) (l : Level) (p : Int) (b : Char) (hi : i ≠ 0) :
    ∀ v ∈ (drawAMI i l p b).1, v.move = false := by
  intro v hv
  simp only [drawAMI, if_neg hi] at hv
  by_cases hl : l = amiLevel p b
  · rw [if_pos hl] at hv
    simp at hv
    rcases hv with rfl | rfl <;> rfl
  · rw [if_neg hl] at hv
    simp at hv
    rcases hv with rfl | rfl | rfl <;> rfl

lemma ami_zero (l : Level) (p : Int) (b : Char) :
    ∃ L rest, (drawAMI 0 l p b).1 = Vertex.mk 0 L true :: rest ∧
      ∀ u ∈ rest, u.move = false := by
  refine ⟨amiLevel p b, [Vertex.mk 2 (amiLevel p b) false], ?_, ?_⟩
  · simp [drawAMI]
  · intro u hu
    simp at hu
    subst hu
    rfl

lemma ami_pos (i : Nat) (l : Level) (p : Int) (b : Char) :
    ∀ v ∈ (drawAMI i l p b).1, 2 * i ≤ v.pos2 ∧ v.pos2 ≤ 2 * i + 2 := by
  intro v hv
  simp only [drawAMI] at hv
  by_cases hi : i = 0
  · rw [if_pos hi] at hv
    simp at hv
    rcases hv with rfl | rfl <;> simp
  · rw [if_neg hi] at hv
    by_cases hl : l = amiLevel p b
    · rw [if_pos hl] at hv
      simp at hv
      rcases hv with rfl | rfl <;> simp
    · rw [if_neg hl] at hv
      simp at hv
      rcases hv with rfl | rfl | rfl <;> simp

lemma ami_end (i : Nat) (l : Level) (p : Int) (b : Char) :
    ∀ v ∈ (drawAMI i l p b).1, v.pos2 = 2 * i + 2 →
      v.level = (drawAMI i l p b).2.1 := by
  intro v hv hp
  simp only [drawAMI] at hv ⊢
  by_cases hi : i = 0
  · rw [if_pos hi] at hv
    simp at hv
    rcases hv with rfl | rfl
    · exact absurd (show 2 * i = 2 * i + 2 from hp) (by omega)
    · rfl
  · rw [if_neg hi] at hv
    by_cases hl : l = amiLevel p b
    · rw [if_pos hl] at hv
      simp at hv
      rcases hv with rfl | rfl
      · exact absurd (show 2 * i = 2 * i + 2 from hp) (by omega)
      · rfl
    · rw [if_neg hl] at hv
      simp at hv
      rcases hv with rfl | rfl | rfl
      · exact absurd (show 2 * i = 2 * i + 2 from hp) (by omega)
      · exact absurd (show 2 * i = 2 * i + 2 from hp) (by omega)
      · rfl

lemma ami_em (i : Nat) (l : Level) (p : Int) (b : Char) :
    Vertex.mk (2 * i + 2) ((drawAMI i l p b).2.1) false ∈ (drawAMI i l p b).1 := by
  simp [drawAMI]

lemma ami_chg (i : Nat) (l : Level) (p : Int) (b : Char) (hi : i ≠ 0)
    (hne : l ≠ amiLevel p b) :
    ∃ q, (drawAMI i l p b).1 =
      Vertex.mk (2 * i) l false :: Vertex.mk (2 * i) (amiLevel p b) false :: q := by
  refine ⟨[Vertex.mk (2 * i + 2) (amiLevel p b) false], ?_⟩
  simp [drawAMI, if_neg hi, if_neg hne]

lemma ami_same (i : Nat) (l : Level) (p : Int) (b : Char) (hi : i ≠ 0)
    (hsm : l = amiLevel p b) :
    ∀ v ∈ (drawAMI i l p b).1, v.pos2 = 2 * i → v.level = l := by
  intro v hv hp
  simp only [drawAMI, if_neg hi, if_pos hsm] at hv
  simp at hv
  rcases hv with rfl | rfl
  · rfl
  · exact absurd (show 2 * i + 2 = 2 * i from hp) (by omega)

/-! ### CMI: discharge of the step hypotheses -/

lemma cmiStep_st (i : Nat) (l : Level) (p : Int) (b : Char) :
    (drawCMI i l p b).2 = stepSt drawCMI l p b := by
  by_cases hb : b = '1' <;> simp [drawCMI, stepSt, hb]

lemma cmi_moves (i : Nat) (l : Level) (p : Int) (b : Char) (hi : i ≠ 0) :
    ∀ v ∈ (drawCMI i l p b).1, v.move = false := by
  intro v hv
  by_cases hb : b = '1'
  · simp only [drawCMI, if_pos hb, if_neg hi] at hv
    by_cases hl : l = cmiOneLevel p
    · rw [if_pos hl] at hv
      simp at hv
      rcases hv with rfl | rfl <;> rfl
    · rw [if_neg hl] at hv
      simp at hv
      rcases hv with rfl | rfl | rfl <;> rfl
  · simp only [drawCMI, if_neg hb, if_neg hi] at hv
    by_cases hl : l = Level.zero
    · rw [if_pos hl] at hv
      simp at hv
      rcases hv with rfl | rfl | rfl | rfl <;> rfl
    · rw [if_neg hl] at hv
      simp at hv
      rcases hv with rfl | rfl | rfl | rfl | rfl <;> rfl

lemma cmi_zero (l : Level) (p : Int) (b : Char) :
    ∃ L rest, (drawCMI 0 l p b).1 = Vertex.mk 0 L true :: rest ∧
      ∀ u ∈ rest, u.move = false := by
  by_cases hb : b = '1'
  · refine ⟨cmiOneLevel p, [Vertex.mk 2 (cmiOneLevel p) false], ?_, ?_⟩
    · simp [drawCMI, hb]
    · intro u hu
      simp at hu
      subst hu
      rfl
  · refine ⟨Level.zero,
      [Vertex.mk 1 Level.zero false, Vertex.mk 1 Level.high false,
       Vertex.mk 2 Level.high false], ?_, ?_⟩
    · simp [drawCMI, hb]
    · intro u hu
      simp at hu
      rcases hu with rfl | rfl | rfl <;> rfl

lemma cmi_pos (i : Nat) (l : Level) (p : Int) (b : Char) :
    ∀ v ∈ (drawCMI i l p b).1, 2 * i ≤ v.pos2 ∧ v.pos2 ≤ 2 * i + 2 := by
  intro v hv
  by_cases hb : b = '1'
  · simp only [drawCMI, if_pos hb] at hv
    by_cases hi : i = 0
    · rw [if_pos hi] at hv
      simp at hv
      rcases hv with rfl | rfl <;> simp
    · rw [if_neg hi] at hv
      by_cases hl : l = cmiOneLevel p
      · rw [if_pos hl] at hv
        simp at hv
        rcases hv with rfl | rfl <;> simp
      · rw [if_neg hl] at hv
        simp at hv
        rcases hv with rfl | rfl | rfl <;> simp
  · simp only [drawCMI, if_neg hb] at hv
    by_cases hi : i = 0
    · rw [if_pos hi] at hv
      simp at hv
      rcases hv with rfl | rfl | rfl | rfl <;> simp
    · rw [if_neg hi] at hv
      by_cases hl : l = Level.zero
      · rw [if_pos hl] at hv
        simp at hv
        rcases hv with rfl | rfl | rfl | rfl <;> simp
      · rw [if_neg hl] at hv
        simp at hv
        rcases hv with rfl | rfl | rfl | rfl | rfl <;> simp

lemma cmi_end (i : Nat) (l : Level) (p : Int) (b : Char) :
    ∀ v ∈ (drawCMI i l p b).1, v.pos2 = 2 * i + 2 →
      v.level = (drawCMI i l p b).2.1 := by
  intro v hv hp
  by_cases hb : b = '1'
  · simp only [drawCMI, if_pos hb] at hv ⊢
    by_cases hi : i = 0
    · rw [if_pos hi] at hv
      simp at hv
      rcases hv with rfl | rfl
      · exact absurd (show 2 * i = 2 * i + 2 from hp) (by omega)
      · rfl
    · rw [if_neg hi] at hv
      by_cases hl : l = cmiOneLevel p
      · rw [if_pos hl] at hv
        simp at hv
        rcases hv with rfl | rfl
        · exact absurd (show 2 * i = 2 * i + 2 from hp) (by omega)
        · rfl
      · rw [if_neg hl] at hv
        simp at hv
        rcases hv with rfl | rfl | rfl
        · exact absurd (show 2 * i = 2 * i + 2 from hp) (by omega)
        · exact absurd (show 2 * i = 2 * i + 2 from hp) (by omega)
        · rfl
  · simp only [drawCMI, if_neg hb] at hv ⊢
    by_cases hi : i = 0
    · rw [if_pos hi] at hv
      simp at hv
      rcases hv with rfl | rfl | rfl | rfl
      · exact absurd (show 2 * i = 2 * i + 2 from hp) (by omega)
      · exact absurd (show 2 * i + 1 = 2 * i + 2 from hp) (by omega)
      · exact absurd (show 2 * i + 1 = 2 * i + 2 from hp) (by omega)
      · rfl
    · rw [if_neg hi] at hv
      by_cases hl : l = Level.zero
      · rw [if_pos hl] at hv
        simp at hv
        rcases hv with rfl | rfl | rfl | rfl
        · exact absurd (show 2 * i = 2 * i + 2 from hp) (by omega)
        · exact absurd (show 2 * i + 1 = 2 * i + 2 from hp) (by omega)
        · exact absurd (show 2 * i + 1 = 2 * i + 2 from hp) (by omega)
        · rfl
      · rw [if_neg hl] at hv
        simp at hv
        rcases hv with rfl | rfl | rfl | rfl | rfl
        · exact absurd (show 2 * i = 2 * i + 2 from hp) (by omega)
        · exact absurd (show 2 * i = 2 * i + 2 from hp) (by omega)
        · exact absurd (show 2 * i + 1 = 2 * i + 2 from hp) (by omega)
        · exact absurd (show 2 * i + 1 = 2 * i + 2 from hp) (by omega)
        · rfl

lemma cmi_em (i : Nat) (l : Level) (p : Int) (b : Char) :
    Vertex.mk (2 * i + 2) ((drawCMI i l p b).2.1) false ∈ (drawCMI i l p b).1 := by
  by_cases hb : b = '1' <;> simp [drawCMI, hb]

lemma cmi_chg (i : Nat) (l : Level) (p : Int) (b : Char) (hi : i ≠ 0)
    (hne : l ≠ (if b = '1' then cmiOneLevel p else Level.zero)) :
    ∃ q, (drawCMI i l p b).1 = Vertex.mk (2 * i) l false ::
      Vertex.mk (2 * i) (if b = '1' then cmiOneLevel p else Level.zero) false :: q := by
  by_cases hb : b = '1'
  · rw [if_pos hb] at hne ⊢
    refine ⟨[Vertex.mk (2 * i + 2) (cmiOneLevel p) false], ?_⟩
    simp [drawCMI, hb, if_neg hi, if_neg hne]
  · rw [if_neg hb] at hne ⊢
    refine ⟨[Vertex.mk (2 * i + 1) Level.zero false, Vertex.mk (2 * i + 1) Level.high false,
      Vertex.mk (2 * i + 2) Level.high false], ?_⟩
    simp [drawCMI, hb, if_neg hi, if_neg hne]

lemma cmi_same (i : Nat) (l : Level) (p : Int) (b : Char) (hi : i ≠ 0)
    (hsm : l = (if b = '1' then cmiOneLevel p else Level.zero)) :
    ∀ v ∈ (drawCMI i l p b).1, v.pos2 = 2 * i → v.level = l := by
  intro v hv hp
  by_cases hb : b = '1'
  · rw [if_pos hb] at hsm
    simp only [drawCMI, if_pos hb, if_neg hi, if_pos hsm] at hv
    simp at hv
    rcases hv with rfl | rfl
    · rfl
    · exact absurd (show 2 * i + 2 = 2 * i from hp) (by omega)
  · rw [if_neg hb] at hsm
    simp only [drawCMI, if_neg hb, if_neg hi, if_pos hsm] at hv
    simp at hv
    rcases hv with rfl | rfl | rfl | rfl
    · rfl
    · exact absurd (show 2 * i + 1 = 2 * i from hp) (by omega)
    · exact absurd (show 2 * i + 1 = 2 * i from hp) (by omega)
    · exact absurd (show 2 * i + 2 = 2 * i from hp) (by omega)

lemma cmi_mid (i : Nat) (l : Level) (p : Int) (b : Char) (hb : ¬b = '1') :
    ∃ hd, (drawCMI i l p b).1 = hd ++
      [Vertex.mk (2 * i + 1) Level.zero false, Vertex.mk (2 * i + 1) Level.high false,
       Vertex.mk (2 * i + 2) Level.high false] := by
  refine ⟨(if i = 0 then [Vertex.mk (2 * i) Level.zero true]
    else Vertex.mk (2 * i) l false ::
      (if l = Level.zero then [] else [Vertex.mk (2 * i) Level.zero false])), ?_⟩
  simp [drawCMI, hb]

/-! ### Bridging the threaded loop state to the polarity observers -/

lemma stAfter_ami_pol :
    ∀ (xs : List Char) (st : Level × Int),
      (stAfter drawAMI st xs).2 = xs.foldl amiNextPol st.2 := by
  intro xs
  induction xs with
  | nil => intro st; rfl
  | cons b bs ih =>
    intro st
    simp only [stAfter, List.foldl_cons]
    rw [ih]
    rfl

lemma stAfter_cmi_pol :
    ∀ (xs : List Char) (st : Level × Int),
      (stAfter drawCMI st xs).2 = xs.foldl cmiNextPol st.2 := by
  intro xs
  induction xs with
  | nil => intro st; rfl
  | cons b bs ih =>
    intro st
    simp only [stAfter, List.foldl_cons]
    rw [ih]
    congr 1
    by_cases hb : b = '1' <;> simp [stepSt, drawCMI, cmiNextPol, hb]

lemma prevState_ami (bits : List Char) (i : Nat) :
    prevState drawAMI 1 bits i = amiPolAt bits i := by
  simp only [prevState, amiPolAt]
  rw [stAfter_ami_pol]

lemma prevState_cmi (bits : List Char) (i : Nat) :
    prevState drawCMI (-1) bits i = cmiPolAt bits i := by
  simp only [prevState, cmiPolAt]
  rw [stAfter_cmi_pol]

/-! ### Per-bit ending levels (the `lastY` value after bit `i`) -/

lemma nrz_level_take_succ (bits : List Char) (i : Nat) (h : i < bits.length) :
    (stAfter nrzStep (Level.zero, ()) (bits.take (i + 1))).1 =
      nrzLevel (bits.getD i '0') := by
  rw [stAfter_take_succ nrzStep bits i _ h]
  rfl

lemma rz_level_take_succ (bits : List Char) (i : Nat) (h : i < bits.length) :
    (stAfter rzStep (Level.zero, ()) (bits.take (i + 1))).1 = Level.zero := by
  rw [stAfter_take_succ rzStep bits i _ h]
  rfl

lemma ami_level_take_succ (bits : List Char) (i : Nat) (h : i < bits.length) :
    (stAfter drawAMI (Level.zero, 1) (bits.take (i + 1))).1 = amiLevelAt bits i := by
  rw [stAfter_take_succ drawAMI bits i _ h]
  show amiLevel ((stAfter drawAMI (Level.zero, 1) (bits.take i)).2)
    (bits.getD i '0') = amiLevelAt bits i
  rw [stAfter_ami_pol]
  rfl

lemma cmi_level_take_succ_one (bits : List Char) (i : Nat) (h : i < bits.length)
    (hb : bits.getD i '0' = '1') :
    (stAfter drawCMI (Level.zero, -1) (bits.take (i + 1))).1 =
      cmiOneLevel (cmiPolAt bits i) := by
  rw [stAfter_take_succ drawCMI bits i _ h, hb]
  show (drawCMI 1 ((stAfter drawCMI (Level.zero, -1) (bits.take i)).1)
    ((stAfter drawCMI (Level.zero, -1) (bits.take i)).2) '1').2.1 = _
  rw [show ∀ l p, (drawCMI 1 l p '1').2.1 = cmiOneLevel p from fun l p => by
    simp [drawCMI]]
  rw [stAfter_cmi_pol]
  rfl

/-! ### Trace-level structural lemmas, one per scheme -/

lemma nrz_pen (bits : List Char) (b : Char) :
    penDiscipline (nrzTrace (b :: bits)) :=
  runS_pen nrzStep nrz_moves nrz_zero bits Level.zero () b

lemma rz_pen (bits : List Char) (b : Char) :
    penDiscipline (rzTrace (b :: bits)) :=
  runS_pen rzStep rz_moves rz_zero bits Level.zero () b

lemma man_pen (bits : List Char) (b : Char) :
    penDiscipline (manchesterTrace (b :: bits)) :=
  runS_pen manchesterStep man_moves man_zero bits Level.zero () b

lemma ami_pen (bits : List Char) (b : Char) :
    penDiscipline (amiTrace (b :: bits)) :=
  runS_pen drawAMI ami_moves ami_zero bits Level.zero 1 b

lemma cmi_pen (bits : List Char) (b : Char) :
    penDiscipline (cmiTrace (b :: bits)) :=
  runS_pen drawCMI cmi_moves cmi_zero bits Level.zero (-1) b

lemma nrz_boundary (bits : List Char) (i : Nat) (h1 : 0 < i) (h2 : i < bits.length) :
    boundaryOk (nrzTrace bits) i (prevLevel nrzStep () bits i) (nrzStart bits i) :=
  runS_boundary nrzStep (fun _ _ b => nrzLevel b) nrzStep_st nrz_pos nrz_end
    nrz_chg nrz_same bits Level.zero () i h1 h2

lemma rz_boundary (bits : List Char) (i : Nat) (h1 : 0 < i) (h2 : i < bits.length) :
    boundaryOk (rzTrace bits) i (prevLevel rzStep () bits i) (rzStart bits i) :=
  runS_boundary rzStep (fun _ _ b => rzFirst b) rzStep_st rz_pos rz_end
    rz_chg rz_same bits Level.zero () i h1 h2

lemma man_boundary (bits : List Char) (i : Nat) (h1 : 0 < i) (h2 : i < bits.length) :
    boundaryOk (manchesterTrace bits) i (prevLevel manchesterStep () bits i)
      (manStart bits i) :=
  runS_boundary manchesterStep (fun _ _ b => manFirst b) manchesterStep_st man_pos
    man_end man_chg man_same bits Level.zero () i h1 h2

lemma ami_boundary (bits : List Char) (i : Nat) (h1 : 0 < i) (h2 : i < bits.length) :
    boundaryOk (amiTrace bits) i (prevLevel drawAMI 1 bits i) (amiStart bits i) := by
  have h := runS_boundary drawAMI (fun _ p b => amiLevel p b) amiStep_st ami_pos
    ami_end ami_chg ami_same bits Level.zero 1 i h1 h2
  have hpol := prevState_ami bits i
  simp only [prevState] at hpol
  rw [hpol] at h
  exact h

lemma cmi_boundary (bits : List Char) (i : Nat) (h1 : 0 < i) (h2 : i < bits.length) :
    boundaryOk (cmiTrace bits) i (prevLevel drawCMI (-1) bits i) (cmiStart bits i) := by
  have h := runS_boundary drawCMI
    (fun _ p b => if b = '1' then cmiOneLevel p else Level.zero) cmiStep_st cmi_pos
    cmi_end cmi_chg cmi_same bits Level.zero (-1) i h1 h2
  have hpol := prevState_cmi bits i
  simp only [prevState] at hpol
  rw [hpol] at h
  exact h

lemma nrz_end_mem_trace (bits : List Char) (i : Nat) (h : i < bits.length) :
    Vertex.mk (2 * i + 2) (nrzLevel (bits.getD i '0')) false ∈ nrzTrace bits := by
  have hm := runS_end_mem nrzStep nrzStep_st nrz_em bits 0 Level.zero () i h
  rw [nrz_level_take_succ bits i h] at hm
  simpa using hm

lemma rz_end_mem_trace (bits : List Char) (i : Nat) (h : i < bits.length) :
    Vertex.mk (2 * i + 2) Level.zero false ∈ rzTrace bits := by
  have hm := runS_end_mem rzStep rzStep_st rz_em bits 0 Level.zero () i h
  rw [rz_level_take_succ bits i h] at hm
  simpa using hm

lemma ami_end_mem_trace (bits : List Char) (i : Nat) (h : i < bits.length) :
    Vertex.mk (2 * i + 2) (amiLevelAt bits i) false ∈ amiTrace bits := by
  have hm := runS_end_mem drawAMI amiStep_st ami_em bits 0 Level.zero 1 i h
  rw [ami_level_take_succ bits i h] at hm
  simpa using hm

lemma cmi_end_mem_trace_one (bits : List Char) (i : Nat) (h : i < bits.length)
    (hb : bits.getD i '0' = '1') :
    Vertex.mk (2 * i + 2) (cmiOneLevel (cmiPolAt bits i)) false ∈ cmiTrace bits := by
  have hm := runS_end_mem drawCMI cmiStep_st cmi_em bits 0 Level.zero (-1) i h
  rw [cmi_level_take_succ_one bits i h hb] at hm
  simpa using hm

lemma rz_mid_trace (bits : List Char) (i : Nat) (h : i < bits.length) :
    ∃ p q, rzTrace bits = p ++
      [Vertex.mk (2 * i + 1) (rzFirst (bits.getD i '0')) false,
       Vertex.mk (2 * i + 1) Level.zero false,
       Vertex.mk (2 * i + 2) Level.zero false] ++ q := by
  have hm := runS_mid rzStep (fun _ => True) (fun b => rzFirst b) (fun _ => Level.zero)
    (fun i l s b _ => rz_mid i l s b) bits 0 Level.zero () i h trivial
  simpa using hm

lemma man_mid_trace (bits : List Char) (i : Nat) (h : i < bits.length) :
    ∃ p q, manchesterTrace bits = p ++
      [Vertex.mk (2 * i + 1) (manFirst (bits.getD i '0')) false,
       Vertex.mk (2 * i + 1) (manSecond (bits.getD i '0')) false,
       Vertex.mk (2 * i + 2) (manSecond (bits.getD i '0')) false] ++ q := by
  have hm := runS_mid manchesterStep (fun _ => True) (fun b => manFirst b)
    (fun b => manSecond b) (fun i l s b _ => man_mid i l s b) bits 0 Level.zero () i h
    trivial
  simpa using hm

lemma cmi_mid_trace (bits : List Char) (i : Nat) (h : i < bits.length)
    (hb : ¬bits.getD i '0' = '1') :
    ∃ p q, cmiTrace bits = p ++
      [Vertex.mk (2 * i + 1) Level.zero false, Vertex.mk (2 * i + 1) Level.high false,
       Vertex.mk (2 * i + 2) Level.high false] ++ q := by
  have hm := runS_mid drawCMI (fun c => ¬c = '1') (fun _ => Level.zero)
    (fun _ => Level.high) cmi_mid bits 0 Level.zero (-1) i h hb
  simpa using hm

lemma amiPolAt_succ (bits : List Char) (i : Nat) (h : i < bits.length) :
    amiPolAt bits (i + 1) = amiNextPol (amiPolAt bits i) (bits.getD i '0') :=
  foldl_take_succ amiNextPol '0' bits i 1 h

lemma cmiPolAt_succ (bits : List Char) (i : Nat) (h : i < bits.length) :
    cmiPolAt bits (i + 1) = cmiNextPol (cmiPolAt bits i) (bits.getD i '0') :=
  foldl_take_succ cmiNextPol '0' bits i (-1) h

/-! ## Claim theorems -/

/-- C1: with initial polarity +1, an AMI 0-bit is at rail ZERO for the whole
bit and leaves the polarity unchanged; an AMI 1-bit is at HIGH when the
current polarity is +1 and at LOW when it is -1, and then the polarity
flips; the flat level of bit `i` is realised in the trace as the vertex
ending the bit; and the bits 0,1,0,1,1,0,1 yield the per-bit levels
ZERO, HIGH, ZERO, LOW, HIGH, ZERO, LOW. -/
theorem C1_ami_levels_and_polarity :
    (∀ (bits : List Char) (i : Nat), i < bits.length →
      (bits.getD i '0' = '0' →
        amiLevelAt bits i = Level.zero ∧ amiPolAt bits (i + 1) = amiPolAt bits i) ∧
      (bits.getD i '0' = '1' →
        (amiPolAt bits i = 1 → amiLevelAt bits i = Level.high) ∧
        (amiPolAt bits i = -1 → amiLevelAt bits i = Level.low) ∧
        amiPolAt bits (i + 1) = -amiPolAt bits i) ∧
      Vertex.mk (2 * i + 2) (amiLevelAt bits i) false ∈ amiTrace bits) ∧
    (List.range 7).map (amiLevelAt ['0', '1', '0', '1', '1', '0', '1']) =
      [Level.zero, Level.high, Level.zero, Level.low, Level.high, Level.zero,
       Level.low] := by
  constructor
  · intro bits i h
    refine ⟨?_, ?_, ami_end_mem_trace bits i h⟩
    · intro hb
      refine ⟨?_, ?_⟩
      · show amiLevel (amiPolAt bits i) (bits.getD i '0') = Level.zero
        rw [hb]
        simp [amiLevel]
      · rw [amiPolAt_succ bits i h, hb]
        simp [amiNextPol]
    · intro hb
      refine ⟨?_, ?_, ?_⟩
      · intro hp
        show amiLevel (amiPolAt bits i) (bits.getD i '0') = Level.high
        rw [hb, hp]
        decide
      · intro hp
        show amiLevel (amiPolAt bits i) (bits.getD i '0') = Level.low
        rw [hb, hp]
        decide
      · rw [amiPolAt_succ bits i h, hb]
        simp [amiNextPol]
  · decide

/-- C1 witness: on the bits 1,1 the first 1-bit is HIGH and the second is
LOW. -/
theorem C1_witness :
    amiLevelAt ['1', '1'] 0 = Level.high ∧ amiLevelAt ['1', '1'] 1 = Level.low := by
  have h0 := (C1_ami_levels_and_polarity.1 ['1', '1'] 0 (by decide)).2.1 (by decide)
  have h1 := (C1_ami_levels_and_polarity.1 ['1', '1'] 1 (by decide)).2.1 (by decide)
  exact ⟨h0.1 (by decide), h1.2.1 (by decide)⟩

/-- C2: with initial polarity -1, a CMI 1-bit occupies the full bit at the
HIGH rail when the polarity is +1 and at the ZERO rail when it is -1, then
the polarity flips; a CMI 0-bit is ZERO on the first half and HIGH on the
second half with the unconditional upward transition at the middle, and
leaves the polarity unchanged; and the bits 1,1,0,1 yield the stated
waveform. -/
theorem C2_cmi_levels_and_polarity :
    (∀ (bits : List Char) (i : Nat), i < bits.length →
      (bits.getD i '0' = '1' →
        (cmiPolAt bits i = 1 →
          Vertex.mk (2 * i + 2) Level.high false ∈ cmiTrace bits) ∧
        (cmiPolAt bits i = -1 →
          Vertex.mk (2 * i + 2) Level.zero false ∈ cmiTrace bits) ∧
        cmiPolAt bits (i + 1) = -cmiPolAt bits i) ∧
      (bits.getD i '0' = '0' →
        (∃ p q, cmiTrace bits = p ++
          [Vertex.mk (2 * i + 1) Level.zero false,
           Vertex.mk (2 * i + 1) Level.high false,
           Vertex.mk (2 * i + 2) Level.high false] ++ q) ∧
        cmiPolAt bits (i + 1) = cmiPolAt bits i)) ∧
    cmiTrace ['1', '1', '0', '1'] =
      [Vertex.mk 0 Level.zero true, Vertex.mk 2 Level.zero false,
       Vertex.mk 2 Level.zero false, Vertex.mk 2 Level.high false,
       Vertex.mk 4 Level.high false, Vertex.mk 4 Level.high false,
       Vertex.mk 4 Level.zero false, Vertex.mk 5 Level.zero false,
       Vertex.mk 5 Level.high false, Vertex.mk 6 Level.high false,
       Vertex.mk 6 Level.high false, Vertex.mk 6 Level.zero false,
       Vertex.mk 8 Level.zero false] := by
  constructor
  · intro bits i h
    constructor
    · intro hb
      refine ⟨?_, ?_, ?_⟩
      · intro hp
        have hm := cmi_end_mem_trace_one bits i h hb
        rw [hp] at hm
        simpa [cmiOneLevel] using hm
      · intro hp
        have hm := cmi_end_mem_trace_one bits i h hb
        rw [hp] at hm
        simpa [cmiOneLevel] using hm
      · rw [cmiPolAt_succ bits i h, hb]
        simp [cmiNextPol]
    · intro hb
      have hb' : ¬bits.getD i '0' = '1' := by
        rw [hb]; decide
      refine ⟨cmi_mid_trace bits i h hb', ?_⟩
      rw [cmiPolAt_succ bits i h, hb]
      simp [cmiNextPol]
  · decide

/-- C2 witness: on the bits 1,0 the 0-bit keeps the polarity and produces
the mid-bit ZERO-to-HIGH transition. -/
theorem C2_witness :
    (∃ p q, cmiTrace ['1', '0'] = p ++
      [Vertex.mk 3 Level.zero false, Vertex.mk 3 Level.high false,
       Vertex.mk 4 Level.high false] ++ q) ∧
    cmiPolAt ['1', '0'] 2 = cmiPolAt ['1', '0'] 1 := by
  have h := (C2_cmi_levels_and_polarity.1 ['1', '0'] 1 (by decide)).2 (by decide)
  exact ⟨h.1, h.2⟩

/-- C3: Manchester has a mid-bit transition in every bit regardless of
neighbours: a 1-bit is LOW on the first half and HIGH on the second
(upward transition at position 0.5), a 0-bit is HIGH then LOW (downward
transition). -/
theorem C3_manchester_mid_transition :
    ∀ (bits : List Char) (i : Nat), i < bits.length →
      (bits.getD i '0' = '1' → ∃ p q, manchesterTrace bits = p ++
        [Vertex.mk (2 * i + 1) Level.low false, Vertex.mk (2 * i + 1) Level.high false,
         Vertex.mk (2 * i + 2) Level.high false] ++ q) ∧
      (bits.getD i '0' = '0' → ∃ p q, manchesterTrace bits = p ++
        [Vertex.mk (2 * i + 1) Level.high false, Vertex.mk (2 * i + 1) Level.low false,
         Vertex.mk (2 * i + 2) Level.low false] ++ q) := by
  intro bits i h
  constructor
  · intro hb
    have hm := man_mid_trace bits i h
    rw [hb] at hm
    simpa [manFirst, manSecond] using hm
  · intro hb
    have hm := man_mid_trace bits i h
    rw [hb] at hm
    simpa [manFirst, manSecond] using hm

/-- C3 witness: the single bit 1 produces the upward mid-bit transition. -/
theorem C3_witness :
    ∃ p q, manchesterTrace ['1'] = p ++
      [Vertex.mk 1 Level.low false, Vertex.mk 1 Level.high false,
       Vertex.mk 2 Level.high false] ++ q :=
  (C3_manchester_mid_transition ['1'] 0 (by decide)).1 (by decide)

/-- C4: RZ is HIGH on the first half for a 1-bit and LOW for a 0-bit, is
ZERO on the second half, and every bit ends at ZERO regardless of its
value. -/
theorem C4_rz_shape :
    ∀ (bits : List Char) (i : Nat), i < bits.length →
      (bits.getD i '0' = '1' → ∃ p q, rzTrace bits = p ++
        [Vertex.mk (2 * i + 1) Level.high false, Vertex.mk (2 * i + 1) Level.zero false,
         Vertex.mk (2 * i + 2) Level.zero false] ++ q) ∧
      (bits.getD i '0' = '0' → ∃ p q, rzTrace bits = p ++
        [Vertex.mk (2 * i + 1) Level.low false, Vertex.mk (2 * i + 1) Level.zero false,
         Vertex.mk (2 * i + 2) Level.zero false] ++ q) ∧
      Vertex.mk (2 * i + 2) Level.zero false ∈ rzTrace bits := by
  intro bits i h
  refine ⟨?_, ?_, rz_end_mem_trace bits i h⟩
  · intro hb
    have hm := rz_mid_trace bits i h
    rw [hb] at hm
    simpa [rzFirst] using hm
  · intro hb
    have hm := rz_mid_trace bits i h
    rw [hb] at hm
    simpa [rzFirst] using hm

/-- C4 witness: the single bit 0 goes LOW then returns to ZERO. -/
theorem C4_witness :
    ∃ p q, rzTrace ['0'] = p ++
      [Vertex.mk 1 Level.low false, Vertex.mk 1 Level.zero false,
       Vertex.mk 2 Level.zero false] ++ q :=
  ((C4_rz_shape ['0'] 0 (by decide)).2).1 (by decide)

/-- C5 (amended): NRZ-L holds HIGH for a 1-bit and ZERO for a 0-bit over
the whole bit, with a vertical transition at the bit's left boundary
exactly when the level differs from the previous bit's ending level; the
text "A" (code point 65, bits 01000001) yields the 15-vertex polyline
below, whose eight per-bit flat levels are ZERO, HIGH, ZERO, ZERO, ZERO,
ZERO, ZERO, HIGH and whose only pen-up vertex is the first. -/
theorem C5_nrz_amended :
    (∀ (bits : List Char) (i : Nat), i < bits.length →
      (bits.getD i '0' = '1' →
        Vertex.mk (2 * i + 2) Level.high false ∈ nrzTrace bits) ∧
      (bits.getD i '0' = '0' →
        Vertex.mk (2 * i + 2) Level.zero false ∈ nrzTrace bits) ∧
      (0 < i → boundaryOk (nrzTrace bits) i (prevLevel nrzStep () bits i)
        (nrzStart bits i))) ∧
    stringToBinary [65] = ['0', '1', '0', '0', '0', '0', '0', '1'] ∧
    nrzTrace (stringToBinary [65]) =
      [Vertex.mk 0 Level.zero true, Vertex.mk 2 Level.zero false,
       Vertex.mk 2 Level.zero false, Vertex.mk 2 Level.high false,
       Vertex.mk 4 Level.high false, Vertex.mk 4 Level.high false,
       Vertex.mk 4 Level.zero false, Vertex.mk 6 Level.zero false,
       Vertex.mk 8 Level.zero false, Vertex.mk 10 Level.zero false,
       Vertex.mk 12 Level.zero false, Vertex.mk 14 Level.zero false,
       Vertex.mk 14 Level.zero false, Vertex.mk 14 Level.high false,
       Vertex.mk 16 Level.high false] ∧
    (List.range 8).map (fun i => nrzLevel ((stringToBinary [65]).getD i '0')) =
      [Level.zero, Level.high, Level.zero, Level.zero, Level.zero, Level.zero,
       Level.zero, Level.high] := by
  refine ⟨?_, by decide, by decide, by decide⟩
  intro bits i h
  refine ⟨?_, ?_, fun h0 => nrz_boundary bits i h0 h⟩
  · intro hb
    have hm := nrz_end_mem_trace bits i h
    rw [hb] at hm
    simpa [nrzLevel] using hm
  · intro hb
    have hm := nrz_end_mem_trace bits i h
    rw [hb] at hm
    simpa [nrzLevel] using hm

/-- C5 counterexample: the claim says the text "A" yields 8 vertices, but
the vertex sequence the code draws for "A" under NRZ-L has 15 vertices. -/
theorem C5_counterexample :
    (nrzTrace (stringToBinary [65])).length = 15 ∧
    ¬(nrzTrace (stringToBinary [65])).length = 8 := by
  decide

/-- C5 witness: on the bits 0,1 the 0-bit ends at ZERO and the 1-bit at
HIGH. -/
theorem C5_witness :
    Vertex.mk 2 Level.zero false ∈ nrzTrace ['0', '1'] ∧
    Vertex.mk 4 Level.high false ∈ nrzTrace ['0', '1'] := by
  have h0 := (C5_nrz_amended.1 ['0', '1'] 0 (by decide)).2.1 (by decide)
  have h1 := (C5_nrz_amended.1 ['0', '1'] 1 (by decide)).1 (by decide)
  exact ⟨by simpa using h0, by simpa using h1⟩

/-- C6: for non-empty ASCII input, `stringToBinary` emits exactly 8 bits
per character and regrouping into 8-bit groups and decoding them
most-significant-bit-first reproduces the code points (round-trip law). -/
theorem C6_encode_length_round_trip :
    ∀ codes : List Nat, codes ≠ [] → (∀ c ∈ codes, c < 128) →
      (stringToBinary codes).length = 8 * codes.length ∧
      (chunks8 (stringToBinary codes)).map bitsVal = codes := by
  intro codes _ h
  exact encode_decode codes (fun c hc => lt_trans (h c hc) (by norm_num))

/-- C6 witness: the code points of "Hi" round-trip. -/
theorem C6_witness :
    (stringToBinary [72, 105]).length = 8 * ([72, 105] : List Nat).length ∧
    (chunks8 (stringToBinary [72, 105])).map bitsVal = [72, 105] :=
  C6_encode_length_round_trip [72, 105] (by decide) (by decide)

/-- C7: for all five schemes and every non-empty bit sequence the trace is
one connected polyline: only the first vertex is a pen-up `moveTo`, and at
every interior bit boundary a level change is drawn as a pen-down vertical
segment while no vertical segment exists there when the level is
unchanged. -/
theorem C7_single_polyline :
    ∀ bits : List Char, bits ≠ [] →
      (penDiscipline (nrzTrace bits) ∧ penDiscipline (rzTrace bits) ∧
       penDiscipline (manchesterTrace bits) ∧ penDiscipline (amiTrace bits) ∧
       penDiscipline (cmiTrace bits)) ∧
      (∀ i : Nat, 0 < i → i < bits.length →
        boundaryOk (nrzTrace bits) i (prevLevel nrzStep () bits i)
          (nrzStart bits i) ∧
        boundaryOk (rzTrace bits) i (prevLevel rzStep () bits i)
          (rzStart bits i) ∧
        boundaryOk (manchesterTrace bits) i (prevLevel manchesterStep () bits i)
          (manStart bits i) ∧
        boundaryOk (amiTrace bits) i (prevLevel drawAMI 1 bits i)
          (amiStart bits i) ∧
        boundaryOk (cmiTrace bits) i (prevLevel drawCMI (-1) bits i)
          (cmiStart bits i)) := by
  intro bits hne
  obtain ⟨b, bs, rfl⟩ := List.exists_cons_of_ne_nil hne
  refine ⟨⟨nrz_pen bs b, rz_pen bs b, man_pen bs b, ami_pen bs b, cmi_pen bs b⟩, ?_⟩
  intro i h1 h2
  exact ⟨nrz_boundary _ i h1 h2, rz_boundary _ i h1 h2, man_boundary _ i h1 h2,
    ami_boundary _ i h1 h2, cmi_boundary _ i h1 h2⟩

/-- C7 witness: on the bits 0,1 the NRZ trace is a single pen-down polyline
and its interior boundary obeys the vertical-transition rule. -/
theorem C7_witness :
    penDiscipline (nrzTrace ['0', '1']) ∧
    boundaryOk (nrzTrace ['0', '1']) 1 (prevLevel nrzStep () ['0', '1'] 1)
      (nrzStart ['0', '1'] 1) := by
  have h := C7_single_polyline ['0', '1'] (by decide)
  exact ⟨h.1.1, (h.2 1 (by decide) (by decide)).1⟩

/-- C8 counterexample: `drawWaveform` does not fail on an empty bit
sequence (it returns the empty vertex sequence) nor on a bit outside 0/1
(the character 2 is processed by the 0-branch of NRZ-L); there is no
InvalidInput error path in the code. -/
theorem C8_counterexample :
    drawWaveform [] "nrz" = [] ∧
    drawWaveform ['2'] "nrz" =
      [Vertex.mk 0 Level.zero true, Vertex.mk 2 Level.zero false] := by
  decide

/-- C8 (amended): the core performs no input validation and cannot fail: an
empty bit sequence yields the empty vertex sequence under every scheme
identifier, and a bit value outside 0/1 (such as the character 2) is
processed by the scheme's default comparison branch, as a 0-bit in NRZ-L,
RZ, Manchester and CMI and as a 1-bit in AMI. -/
theorem C8_amended_no_validation :
    (∀ encoding : String, drawWaveform [] encoding = []) ∧
    (∀ (i : Nat) (l : Level) (s : Unit), nrzStep i l s '2' = nrzStep i l s '0') ∧
    (∀ (i : Nat) (l : Level) (s : Unit), rzStep i l s '2' = rzStep i l s '0') ∧
    (∀ (i : Nat) (l : Level) (s : Unit),
      manchesterStep i l s '2' = manchesterStep i l s '0') ∧
    (∀ (i : Nat) (l : Level) (p : Int), drawCMI i l p '2' = drawCMI i l p '0') ∧
    (∀ (i : Nat) (l : Level) (p : Int), drawAMI i l p '2' = drawAMI i l p '1') := by
  refine ⟨?_, fun i l s => rfl, fun i l s => rfl, fun i l s => rfl,
    fun i l p => rfl, fun i l p => rfl⟩
  intro encoding
  simp [drawWaveform, nrzTrace, rzTrace, manchesterTrace, amiTrace, cmiTrace, runS]

/-- C9 counterexample: an unrecognized scheme identifier does not fail
fast; the switch has no default case, so the call returns normally with an
empty vertex sequence (while a recognized scheme on the same bits draws a
non-empty one). -/
theorem C9_counterexample :
    drawWaveform ['1'] "foo" = [] ∧ ¬nrzTrace ['1'] = [] := by
  decide

/-- C9 (amended): an unrecognized scheme identifier produces an empty
vertex sequence — no case of the dispatch matches, nothing is drawn, no
default scheme is substituted, and no error is raised. -/
theorem C9_amended_unknown_scheme :
    ∀ (binary : List Char) (encoding : String),
      ¬encoding ∈ (["nrz", "rz", "manchester", "ami", "cmi"] : List String) →
      drawWaveform binary encoding = [] := by
  intro binary encoding h
  simp only [List.mem_cons, List.not_mem_nil, or_false, not_or] at h
  obtain ⟨h1, h2, h3, h4, h5⟩ := h
  simp [drawWaveform, h1, h2, h3, h4, h5]

/-- C9 witness: the scheme identifier foo yields the empty vertex
sequence. -/
theorem C9_witness : drawWaveform ['1'] "foo" = [] :=
  C9_amended_unknown_scheme ['1'] "foo" (by decide)

/-- C10: a character whose code point exceeds 255 is converted to a binary
string strictly longer than 8 digits (padStart never truncates), so the
encoded bit sequence of a text containing such a character is strictly
longer than 8 bits per character. -/
theorem C10_wide_code_points :
    (∀ c : Nat, 255 < c → 8 < (charToBinary c).length) ∧
    (∀ (codes : List Nat) (c : Nat), c ∈ codes → 255 < c →
      8 * codes.length < (stringToBinary codes).length) := by
  constructor
  · exact fun c h => length_charToBinary_gt c h
  · intro codes c hmem hc
    induction codes with
    | nil => simp at hmem
    | cons a cs ih =>
      have hsplit : stringToBinary (a :: cs) = charToBinary a ++ stringToBinary cs := by
        simp [stringToBinary]
      rw [hsplit, List.length_append]
      rcases List.mem_cons.1 hmem with rfl | hmem'
      · have h1 := length_charToBinary_gt c hc
        have h2 := length_stringToBinary_ge cs
        simp only [List.length_cons]
        omega
      · have h1 := le_length_charToBinary a
        have h2 := ih hmem'
        simp only [List.length_cons]
        omega

/-- C10 witness: code point 256 becomes 9 binary digits, and encoding the
two code points 65, 256 produces more than 16 bits. -/
theorem C10_witness :
    8 < (charToBinary 256).length ∧
    8 * ([65, 256] : List Nat).length < (stringToBinary [65, 256]).length :=
  ⟨C10_wide_code_points.1 256 (by norm_num),
   C10_wide_code_points.2 [65, 256] 256 (by decide) (by norm_num)⟩
